import Mathlib

/-!
Verification of `src/lang/matmul.cpp` (taichi Tlang matmul benchmark).

The development shallowly embeds, over `ℕ`, `ℤ` and `ℚ`:
* the physical addressing of the hand-written reference kernels
  `AOSOA_matmul` and `SOA_matmul` (lines 133-192 of the source);
* the expression-IR `Matrix` type with its bound-checked accessors and the
  algebraic operations on it (lines 203-263);
* the measurement harness `measure_cpe` (lines 22-54), with wall-clock time
  given by an explicit oracle of successive clock readings and the two
  unbounded `while` loops given explicit fuel;
* the parts of the layout/address compiler that live in `tlang.h` (which is
  not part of the sources), modelled from the specification text.

Floating-point values are modelled as rationals: every concrete computation
the claims mention involves small integers, for which `float32` arithmetic
is exact, and the tolerance checks compare exact constants.
-/

namespace TaichiMatmul

/-- Batch-size constant of the source: `constexpr int N = 256`. -/
def N : ℕ := 256

/-- Vector width of the reference kernels: `constexpr int simd_width = 8`. -/
def simd_width : ℕ := 8

/-- Element offset read by `AOSOA_matmul` for SIMD block `blk`, element
index `i` (of `dim*dim`) and lane `lane`: the kernel loads
`A[p + simd_width * i]` with `p = dim * dim * simd_width * t`, and lane
`lane` of that 8-wide vector sits `lane` elements further. -/
def AOSOA_load_addr (dim blk i lane : ℕ) : ℕ :=
  dim * dim * simd_width * blk + simd_width * i + lane

/-- Element offset written by `AOSOA_matmul`: the kernel stores
`C[p + simd_width * (i * dim + j)]`. -/
def AOSOA_store_addr (dim blk i j lane : ℕ) : ℕ :=
  AOSOA_load_addr dim blk (i * dim + j) lane

/-- Element offset read by `SOA_matmul` for SIMD block `blk`, element index
`i` and lane `lane`: the kernel loads `A[i * N + t * simd_width]`. -/
def SOA_load_addr (blk i lane : ℕ) : ℕ :=
  i * N + blk * simd_width + lane

/-- Element offset written by `SOA_matmul`: the kernel stores
`C[(i * dim + j) * N + t * simd_width]`. -/
def SOA_store_addr (dim blk i j lane : ℕ) : ℕ :=
  SOA_load_addr blk (i * dim + j) lane

/-- One lane of the accumulation loop shared by both reference kernels:
`c = a[i*dim] * b[j]; for (k = 1; k < dim; k++) c = c + a[i*dim+k] * b[k*dim+j]`,
with `a`/`b` the per-lane element reads. -/
def kernelAcc (dim : ℕ) (a b : ℕ → ℚ) (i j : ℕ) : ℚ :=
  (List.range (dim - 1)).foldl
    (fun c k => c + a (i * dim + (k + 1)) * b ((k + 1) * dim + j))
    (a (i * dim) * b j)

/-- Lane `lane` of the vector `AOSOA_matmul` stores at
`C[p + simd_width * (i * dim + j)]` for SIMD block `blk`. -/
def AOSOA_val (dim : ℕ) (A B : ℕ → ℚ) (blk i j lane : ℕ) : ℚ :=
  kernelAcc dim (fun e => A (AOSOA_load_addr dim blk e lane))
    (fun e => B (AOSOA_load_addr dim blk e lane)) i j

/-- Lane `lane` of the vector `SOA_matmul` stores at
`C[(i * dim + j) * N + t * simd_width]` for SIMD block `blk`. -/
def SOA_val (dim : ℕ) (A B : ℕ → ℚ) (blk i j lane : ℕ) : ℚ :=
  kernelAcc dim (fun e => A (SOA_load_addr blk e lane))
    (fun e => B (SOA_load_addr blk e lane)) i j

/-- The logical blocked product entry: `A(i,0)*B(0,j)` folded left-to-right
with `+ A(i,k)*B(k,j)` for `k = 1 .. dim-1`, on logical per-instance data. -/
def matmulVal (dim : ℕ) (a b : ℕ → ℕ → ℚ) (i j : ℕ) : ℚ :=
  (List.range (dim - 1)).foldl
    (fun c k => c + a i (k + 1) * b (k + 1) j)
    (a i 0 * b 0 j)

/-- A logical batch `L t row col` laid out in AOSOA physical order: the
instance at offset `o` is `(o / (dim*dim*8)) * 8 + o % 8`, and the element
index is `o % (dim*dim*8) / 8`. -/
def packAOSOA (dim : ℕ) (L : ℕ → ℕ → ℕ → ℚ) : ℕ → ℚ :=
  fun o =>
    L (o / (dim * dim * 8) * 8 + o % 8)
      (o % (dim * dim * 8) / 8 / dim)
      (o % (dim * dim * 8) / 8 % dim)

/-- A logical batch `L t row col` laid out in SOA physical order with
`n = N = 256`: element index `o / 256`, instance `o % 256`. -/
def packSOA (dim : ℕ) (L : ℕ → ℕ → ℕ → ℚ) : ℕ → ℚ :=
  fun o => L (o % N) (o / N / dim) (o / N % dim)

/-- Claim C1: for `dim ∈ {1,2,4}`, width 8 and instance `t < N = 256`, the
AOSOA reference kernel accesses the datum of matrix element `(row,col)` of
instance `t` (block `t / 8`, lane `t % 8`) at element offset
`(t/8) * (dim*dim*8) + (row*dim+col) * 8 + t%8`, and the SOA reference
kernel accesses it at `(row*dim+col) * n + (t/8)*8 + t%8` with `n = N`;
likewise for the loads of an arbitrary element index `e`. -/
theorem c1_reference_kernel_addressing (dim t row col e : ℕ)
    (hdim : dim = 1 ∨ dim = 2 ∨ dim = 4) (ht : t < N)
    (hrow : row < dim) (hcol : col < dim) :
    AOSOA_store_addr dim (t / 8) row col (t % 8)
        = t / 8 * (dim * dim * 8) + (row * dim + col) * 8 + t % 8
      ∧ SOA_store_addr dim (t / 8) row col (t % 8)
        = (row * dim + col) * N + t / 8 * 8 + t % 8
      ∧ AOSOA_load_addr dim (t / 8) e (t % 8)
        = t / 8 * (dim * dim * 8) + e * 8 + t % 8
      ∧ SOA_load_addr (t / 8) e (t % 8) = e * N + t / 8 * 8 + t % 8 := by
  refine ⟨?_, ?_, ?_, ?_⟩ <;>
    simp only [AOSOA_store_addr, AOSOA_load_addr, SOA_store_addr,
      SOA_load_addr, simd_width] <;> ring

/-- Witness for C1 at `dim = 2`, `t = 13`, `row = 1`, `col = 0`, `e = 3`. -/
theorem c1_witness :
    (2 = 1 ∨ 2 = 2 ∨ 2 = 4) ∧ 13 < N ∧ 1 < 2 ∧ 0 < 2 ∧
      (AOSOA_store_addr 2 (13 / 8) 1 0 (13 % 8)
          = 13 / 8 * (2 * 2 * 8) + (1 * 2 + 0) * 8 + 13 % 8
        ∧ SOA_store_addr 2 (13 / 8) 1 0 (13 % 8)
          = (1 * 2 + 0) * N + 13 / 8 * 8 + 13 % 8
        ∧ AOSOA_load_addr 2 (13 / 8) 3 (13 % 8)
          = 13 / 8 * (2 * 2 * 8) + 3 * 8 + 13 % 8
        ∧ SOA_load_addr (13 / 8) 3 (13 % 8) = 3 * N + 13 / 8 * 8 + 13 % 8) :=
  ⟨by decide, by decide, by decide, by decide,
    c1_reference_kernel_addressing 2 13 1 0 3 (by decide) (by decide)
      (by decide) (by decide)⟩

/-- Uniqueness of quotient and remainder for a blocked decomposition. -/
lemma blocks_inj (M q1 r1 q2 r2 : ℕ) (hM : 0 < M) (h1 : r1 < M) (h2 : r2 < M)
    (h : q1 * M + r1 = q2 * M + r2) : q1 = q2 ∧ r1 = r2 := by
  have d1 : (q1 * M + r1) / M = q1 := by
    rw [Nat.mul_comm q1 M, Nat.mul_add_div hM, Nat.div_eq_of_lt h1]
    omega
  have d2 : (q2 * M + r2) / M = q2 := by
    rw [Nat.mul_comm q2 M, Nat.mul_add_div hM, Nat.div_eq_of_lt h2]
    omega
  have m1 : (q1 * M + r1) % M = r1 := by
    rw [Nat.mul_comm q1 M, Nat.mul_add_mod]
    exact Nat.mod_eq_of_lt h1
  have m2 : (q2 * M + r2) % M = r2 := by
    rw [Nat.mul_comm q2 M, Nat.mul_add_mod]
    exact Nat.mod_eq_of_lt h2
  constructor
  · rw [← d1, ← d2, h]
  · rw [← m1, ← m2, h]

/-- Reading the AOSOA-packed array at the offset the AOSOA kernel loads for
instance `t` and element `e` recovers the logical datum `L t (e/dim) (e%dim)`. -/
lemma packAOSOA_load (dim : ℕ) (hdim : 0 < dim) (L : ℕ → ℕ → ℕ → ℚ) (t e : ℕ)
    (he : e < dim * dim) :
    packAOSOA dim L (AOSOA_load_addr dim (t / 8) e (t % 8))
      = L t (e / dim) (e % dim) := by
  have hD : 0 < dim * dim := Nat.mul_pos hdim hdim
  have hM : 0 < dim * dim * 8 := by omega
  have hr : 8 * e + t % 8 < dim * dim * 8 := by omega
  have haddr : AOSOA_load_addr dim (t / 8) e (t % 8)
      = dim * dim * 8 * (t / 8) + (8 * e + t % 8) := by
    simp only [AOSOA_load_addr, simd_width]
    ring
  have hdiv : (dim * dim * 8 * (t / 8) + (8 * e + t % 8)) / (dim * dim * 8)
      = t / 8 := by
    rw [Nat.mul_add_div hM, Nat.div_eq_of_lt hr]
    omega
  have hmodM : (dim * dim * 8 * (t / 8) + (8 * e + t % 8)) % (dim * dim * 8)
      = 8 * e + t % 8 := by
    rw [Nat.mul_add_mod]
    exact Nat.mod_eq_of_lt hr
  have hmod8 : (dim * dim * 8 * (t / 8) + (8 * e + t % 8)) % 8 = t % 8 := by
    obtain ⟨K, hK⟩ : ∃ K, dim * dim * 8 * (t / 8) = 8 * K :=
      ⟨dim * dim * (t / 8), by ring⟩
    omega
  simp only [packAOSOA]
  rw [haddr, hdiv, hmodM, hmod8]
  have h1 : t / 8 * 8 + t % 8 = t := by omega
  have h2 : (8 * e + t % 8) / 8 = e := by omega
  rw [h1, h2]

/-- Reading the SOA-packed array at the offset the SOA kernel loads for
instance `t < 256` and element `e` recovers the logical datum. -/
lemma packSOA_load (dim : ℕ) (L : ℕ → ℕ → ℕ → ℚ) (t e : ℕ) (ht : t < N) :
    packSOA dim L (SOA_load_addr (t / 8) e (t % 8)) = L t (e / dim) (e % dim) := by
  simp only [N] at ht
  simp only [packSOA, SOA_load_addr, simd_width, N]
  have h0 : e * 256 + t / 8 * 8 + t % 8 = 256 * e + t := by omega
  rw [h0]
  have h1 : (256 * e + t) % 256 = t := by omega
  have h2 : (256 * e + t) / 256 = e := by omega
  rw [h1, h2]

/-- Congruence for `List.foldl` from pointwise agreement on members. -/
lemma foldl_congr_mem {α β : Type} (f g : α → β → α) :
    ∀ (l : List β) (a : α), (∀ x, ∀ b ∈ l, f x b = g x b) →
      l.foldl f a = l.foldl g a := by
  intro l
  induction l with
  | nil => intro a _; rfl
  | cons b l ih =>
    intro a h
    simp only [List.foldl_cons]
    rw [h a b (List.mem_cons_self b l)]
    exact ih _ fun x b2 hb2 => h x b2 (List.mem_cons_of_mem _ hb2)

/-- The kernel accumulation over flattened element reads equals the logical
accumulation, whenever the flat reads decode as `e ↦ (e / dim, e % dim)`. -/
lemma kernelAcc_eq_matmulVal (dim : ℕ) (hdim : 0 < dim)
    (a1 b1 : ℕ → ℚ) (a2 b2 : ℕ → ℕ → ℚ)
    (ha : ∀ e, e < dim * dim → a1 e = a2 (e / dim) (e % dim))
    (hb : ∀ e, e < dim * dim → b1 e = b2 (e / dim) (e % dim))
    (i j : ℕ) (hi : i < dim) (hj : j < dim) :
    kernelAcc dim a1 b1 i j = matmulVal dim a2 b2 i j := by
  have hddim : dim ≤ dim * dim := Nat.le_mul_of_pos_left dim hdim
  have hidim : (i + 1) * dim ≤ dim * dim := Nat.mul_le_mul_right dim hi
  have hip : (i + 1) * dim = i * dim + dim := by ring
  have hinit_a : a1 (i * dim) = a2 i 0 := by
    have h := ha (i * dim) (by omega)
    rwa [Nat.mul_div_cancel i hdim, Nat.mul_mod_left i dim] at h
  have hinit_b : b1 j = b2 0 j := by
    have h := hb j (by omega)
    rwa [Nat.div_eq_of_lt hj, Nat.mod_eq_of_lt hj] at h
  unfold kernelAcc matmulVal
  rw [hinit_a, hinit_b]
  apply foldl_congr_mem
  intro x k hk
  have hk1 : k + 1 < dim := by
    have := List.mem_range.mp hk
    omega
  have hik : i * dim + (k + 1) < dim * dim := by omega
  have hkj : (k + 1) * dim + j < dim * dim := by
    have h1 : (k + 1 + 1) * dim ≤ dim * dim := Nat.mul_le_mul_right dim hk1
    have h2 : (k + 1 + 1) * dim = (k + 1) * dim + dim := by ring
    omega
  have ea := ha (i * dim + (k + 1)) hik
  have eb := hb ((k + 1) * dim + j) hkj
  have ea1 : (i * dim + (k + 1)) / dim = i := by
    rw [Nat.mul_comm i dim, Nat.mul_add_div hdim, Nat.div_eq_of_lt hk1]
    omega
  have ea2 : (i * dim + (k + 1)) % dim = k + 1 := by
    rw [Nat.mul_comm i dim, Nat.mul_add_mod]
    exact Nat.mod_eq_of_lt hk1
  have eb1 : ((k + 1) * dim + j) / dim = k + 1 := by
    rw [Nat.mul_comm (k + 1) dim, Nat.mul_add_div hdim, Nat.div_eq_of_lt hj]
  have eb2 : ((k + 1) * dim + j) % dim = j := by
    rw [Nat.mul_comm (k + 1) dim, Nat.mul_add_mod]
    exact Nat.mod_eq_of_lt hj
  rw [ea, eb, ea1, ea2, eb1, eb2]

/-- The AOSOA kernel lane value on AOSOA-packed inputs is the logical
left-to-right inner product. -/
lemma aosoa_val_packed (dim : ℕ) (hdim : 0 < dim) (LA LB : ℕ → ℕ → ℕ → ℚ)
    (t row col : ℕ) (hrow : row < dim) (hcol : col < dim) :
    AOSOA_val dim (packAOSOA dim LA) (packAOSOA dim LB) (t / 8) row col (t % 8)
      = matmulVal dim (LA t) (LB t) row col := by
  unfold AOSOA_val
  exact kernelAcc_eq_matmulVal dim hdim _ _ _ _
    (fun e he => packAOSOA_load dim hdim LA t e he)
    (fun e he => packAOSOA_load dim hdim LB t e he) row col hrow hcol

/-- The SOA kernel lane value on SOA-packed inputs is the logical
left-to-right inner product. -/
lemma soa_val_packed (dim : ℕ) (hdim : 0 < dim) (LA LB : ℕ → ℕ → ℕ → ℚ)
    (t row col : ℕ) (ht : t < N) (hrow : row < dim) (hcol : col < dim) :
    SOA_val dim (packSOA dim LA) (packSOA dim LB) (t / 8) row col (t % 8)
      = matmulVal dim (LA t) (LB t) row col := by
  unfold SOA_val
  exact kernelAcc_eq_matmulVal dim hdim _ _ _ _
    (fun e _ => packSOA_load dim LA t e ht)
    (fun e _ => packSOA_load dim LB t e ht) row col hrow hcol

/-- Claim C4: for every `dim ∈ {1,2,4}` and every logical batch presented
once in AOSOA order and once in SOA order, `AOSOA_matmul` and `SOA_matmul`
compute the same blocked product: for each instance `t < N` and element
`(row,col)` both produce `A(row,0)*B(0,col)` accumulated left-to-right with
`+ A(row,k)*B(k,col)`, so their outputs agree elementwise when read back
through their respective address formulas. -/
theorem c4_reference_kernels_agree (dim t row col : ℕ) (LA LB : ℕ → ℕ → ℕ → ℚ)
    (hdim : dim = 1 ∨ dim = 2 ∨ dim = 4) (ht : t < N)
    (hrow : row < dim) (hcol : col < dim) :
    AOSOA_val dim (packAOSOA dim LA) (packAOSOA dim LB) (t / 8) row col (t % 8)
        = matmulVal dim (LA t) (LB t) row col
      ∧ SOA_val dim (packSOA dim LA) (packSOA dim LB) (t / 8) row col (t % 8)
        = matmulVal dim (LA t) (LB t) row col
      ∧ AOSOA_val dim (packAOSOA dim LA) (packAOSOA dim LB) (t / 8) row col (t % 8)
        = SOA_val dim (packSOA dim LA) (packSOA dim LB) (t / 8) row col (t % 8) := by
  have hdim0 : 0 < dim := by rcases hdim with h | h | h <;> omega
  have h1 := aosoa_val_packed dim hdim0 LA LB t row col hrow hcol
  have h2 := soa_val_packed dim hdim0 LA LB t row col ht hrow hcol
  exact ⟨h1, h2, by rw [h1, h2]⟩

/-- Witness for C4 at `dim = 2`, `t = 11`, `row = 1`, `col = 0` and concrete
logical inputs. -/
theorem c4_witness :
    (2 = 1 ∨ 2 = 2 ∨ 2 = 4) ∧ 11 < N ∧ 1 < 2 ∧ 0 < 2 ∧
      (AOSOA_val 2 (packAOSOA 2 fun (t r c : ℕ) => (t : ℚ) + r + c)
            (packAOSOA 2 fun (t r c : ℕ) => (t : ℚ) * r + c) (11 / 8) 1 0 (11 % 8)
          = matmulVal 2 ((fun (t r c : ℕ) => (t : ℚ) + r + c) 11)
              ((fun (t r c : ℕ) => (t : ℚ) * r + c) 11) 1 0
        ∧ SOA_val 2 (packSOA 2 fun (t r c : ℕ) => (t : ℚ) + r + c)
            (packSOA 2 fun (t r c : ℕ) => (t : ℚ) * r + c) (11 / 8) 1 0 (11 % 8)
          = matmulVal 2 ((fun (t r c : ℕ) => (t : ℚ) + r + c) 11)
              ((fun (t r c : ℕ) => (t : ℚ) * r + c) 11) 1 0
        ∧ AOSOA_val 2 (packAOSOA 2 fun (t r c : ℕ) => (t : ℚ) + r + c)
            (packAOSOA 2 fun (t r c : ℕ) => (t : ℚ) * r + c) (11 / 8) 1 0 (11 % 8)
          = SOA_val 2 (packSOA 2 fun (t r c : ℕ) => (t : ℚ) + r + c)
              (packSOA 2 fun (t r c : ℕ) => (t : ℚ) * r + c) (11 / 8) 1 0 (11 % 8)) :=
  ⟨by decide, by decide, by decide, by decide,
    c4_reference_kernels_agree 2 11 1 0 _ _ (by decide) (by decide)
      (by decide) (by decide)⟩

/-- Modelled from the spec: the Address Compiler function `addr.eval(i, n)`
is declared in `tlang.h`, which is not among the sources. Per spec section
4.3, for a leaf bound at declaration position `e` of the AOSOA layout of
`Tlang_matmatmul` (repeat count 8, block size `8*dim*dim`), the physical
offset of logical index `i` decomposes as
`leaf_base + (i / 8) * block_stride + (i % 8) * lane_stride` with
`leaf_base = 8 * e`, `block_stride = dim * dim * 8` and `lane_stride = 1`. -/
def addr_eval (dim e i : ℕ) : ℕ :=
  8 * e + i / 8 * (dim * dim * 8) + i % 8

/-- Claim C3: for a placed leaf with repeat count 8 and block size
`8*dim*dim` and batch size `n = 256`, the address function is injective over
instance indices in `[0, 256)`, its 256 offsets all land in
`[0, 256*dim*dim)`, and the offsets of all `dim*dim` leaves of one buffer
together cover that range exactly. -/
theorem c3_addr_eval_bijective (dim e t1 t2 o : ℕ) (hdim : 0 < dim) :
    (t1 < 256 → t2 < 256 → addr_eval dim e t1 = addr_eval dim e t2 → t1 = t2)
      ∧ (e < dim * dim → t1 < 256 → addr_eval dim e t1 < 256 * (dim * dim))
      ∧ (o < 256 * (dim * dim) →
          ∃ e2, e2 < dim * dim ∧ ∃ t, t < 256 ∧ addr_eval dim e2 t = o) := by
  have hD : 0 < dim * dim := Nat.mul_pos hdim hdim
  refine ⟨?_, ?_, ?_⟩
  · intro h1 h2 heq
    simp only [addr_eval] at heq
    have heq2 : t1 / 8 * (dim * dim * 8) + t1 % 8
        = t2 / 8 * (dim * dim * 8) + t2 % 8 := by omega
    have hu := blocks_inj (dim * dim * 8) (t1 / 8) (t1 % 8) (t2 / 8) (t2 % 8)
      (by omega) (by omega) (by omega) heq2
    omega
  · intro he ht
    simp only [addr_eval]
    have h31 : t1 / 8 ≤ 31 := by omega
    have hmul : t1 / 8 * (dim * dim * 8) ≤ 31 * (dim * dim * 8) :=
      Nat.mul_le_mul_right (dim * dim * 8) h31
    have h248 : 31 * (dim * dim * 8) = 248 * (dim * dim) := by ring
    omega
  · intro ho
    have hM : 0 < dim * dim * 8 := by omega
    have hrem : o % (dim * dim * 8) < dim * dim * 8 := Nat.mod_lt o hM
    refine ⟨o % (dim * dim * 8) / 8, by omega,
      8 * (o / (dim * dim * 8)) + o % (dim * dim * 8) % 8, ?_, ?_⟩
    · have hq : o / (dim * dim * 8) < 32 := by
        rw [Nat.div_lt_iff_lt_mul hM]
        have h32 : 32 * (dim * dim * 8) = 256 * (dim * dim) := by ring
        omega
      omega
    · simp only [addr_eval]
      have ha : (8 * (o / (dim * dim * 8)) + o % (dim * dim * 8) % 8) / 8
          = o / (dim * dim * 8) := by omega
      have hb : (8 * (o / (dim * dim * 8)) + o % (dim * dim * 8) % 8) % 8
          = o % (dim * dim * 8) % 8 := by omega
      rw [ha, hb]
      have hc : o / (dim * dim * 8) * (dim * dim * 8) + o % (dim * dim * 8) = o :=
        Nat.div_add_mod' o (dim * dim * 8)
      omega

/-- Witness for C3 at `dim = 2`, `e = 1`, `t1 = 9`, `t2 = 17`, `o = 100`. -/
theorem c3_witness :
    0 < 2 ∧
      ((9 < 256 → 17 < 256 → addr_eval 2 1 9 = addr_eval 2 1 17 → 9 = 17)
        ∧ (1 < 2 * 2 → 9 < 256 → addr_eval 2 1 9 < 256 * (2 * 2))
        ∧ (100 < 256 * (2 * 2) →
            ∃ e2, e2 < 2 * 2 ∧ ∃ t, t < 256 ∧ addr_eval 2 e2 t = 100)) :=
  ⟨by decide, c3_addr_eval_bijective 2 1 9 17 100 (by decide)⟩

/-- Modelled from the spec (section 3): the IR node type `Expr` is declared
in `tlang.h`, which is not among the sources — a tagged variant with leaf
placeholders and `Add` / `Multiply` / `Store` operator nodes. The `Matrix`
operations below, which are in the sources, only build such nodes. -/
inductive Expr where
  | leaf : ℕ → Expr
  | add : Expr → Expr → Expr
  | mul : Expr → Expr → Expr
  | store : Expr → Expr
deriving DecidableEq

/-- The IR matrix of the source: `struct Matrix { int n, m; std::vector<Expr> entries; }`. -/
structure Matrix where
  n : ℕ
  m : ℕ
  entries : List Expr
deriving DecidableEq

/-- The constructor `Matrix(int n, int m)`: `entries.resize(n * m, Expr())`. -/
def Matrix.make (n m : ℕ) : Matrix :=
  ⟨n, m, List.replicate (n * m) (Expr.leaf 0)⟩

/-- The bound checks of the 2-D accessor `Expr &operator()(int i, int j)`:
`TC_ASSERT(0 <= i && i < n); TC_ASSERT(0 <= j && j < n);` — the column
index `j` is compared against the row count `n`, exactly as in the source. -/
def Matrix.check2 (A : Matrix) (i j : ℤ) : Bool :=
  decide (0 ≤ i) && decide (i < (A.n : ℤ)) && decide (0 ≤ j)
    && decide (j < (A.n : ℤ))

/-- The 2-D accessor as a read of `entries[i * m + j]`, guarded by the
assertions; a failed assertion (a fatal abort) is `none`. -/
def Matrix.get2 (A : Matrix) (i j : ℤ) : Option Expr :=
  if A.check2 i j then A.entries.get? (i * (A.m : ℤ) + j).toNat else none

/-- The 2-D accessor as a write target for `entries[i * m + j]`. -/
def Matrix.set2 (A : Matrix) (i j : ℤ) (e : Expr) : Option Matrix :=
  if A.check2 i j then
    some ⟨A.n, A.m, A.entries.set (i * (A.m : ℤ) + j).toNat e⟩
  else none

/-- The 1-D accessor `Expr &operator()(int i)`:
`TC_ASSERT(0 <= i && i < n * m); TC_ASSERT(n == 1 || m == 1);`. -/
def Matrix.get1 (A : Matrix) (i : ℤ) : Option Expr :=
  if 0 ≤ i ∧ i < (A.n : ℤ) * (A.m : ℤ) then
    if A.n = 1 ∨ A.m = 1 then A.entries.get? i.toNat else none
  else none

/-- `Matrix operator*(const Matrix &A, const Matrix &B)` of the source:
`TC_ASSERT(A.m == B.n)`; result of shape `(A.n, B.m)`; entry `(i,j)` built
as `C(i,j) = A(i,0) * B(0,j)` then `C(i,j) = C(i,j) + A(i,k) * B(k,j)` for
`k = 1 .. A.m - 1`. Every element access goes through the asserting
accessors, and a failed assertion aborts the run (`none`). -/
def matMul (A B : Matrix) : Option Matrix :=
  if A.m = B.n then
    (List.range A.n).foldlM
      (fun C0 i =>
        (List.range B.m).foldlM
          (fun C1 j => do
            let a0 ← A.get2 i 0
            let b0 ← B.get2 0 j
            let C2 ← C1.set2 i j (Expr.mul a0 b0)
            (List.range (A.m - 1)).foldlM
              (fun C3 k => do
                let c ← C3.get2 i j
                let a ← A.get2 i ((k : ℤ) + 1)
                let b ← B.get2 ((k : ℤ) + 1) j
                C3.set2 i j (Expr.add c (Expr.mul a b)))
              C2)
          C0)
      (Matrix.make A.n B.m)
  else none

/-- `Matrix operator+(const Matrix &A, const Matrix &B)` of the source:
`TC_ASSERT(A.n == B.n); TC_ASSERT(A.m == B.m);` then
`C(i,j) = A(i,j) + B(i,j)` through the asserting accessors. -/
def matAdd (A B : Matrix) : Option Matrix :=
  if A.n = B.n then
    if A.m = B.m then
      (List.range A.n).foldlM
        (fun C0 i =>
          (List.range A.m).foldlM
            (fun C1 j => do
              let a ← A.get2 i j
              let b ← B.get2 i j
              C1.set2 i j (Expr.add a b))
            C0)
        (Matrix.make A.n A.m)
    else none
  else none

/-- Claim C2, at a failing input: the shapes `A : 1×2` and `B : 2×1` are
multiplication-compatible (`A.m = B.n`), yet `operator*` aborts instead of
returning the 1×1 inner-product matrix — the access `A(0,1)` in the `k`
loop fails the accessor assertion `j < n` (here `n = 1`), because the
accessor checks the column index against the row count. -/
theorem c2_matmul_compatible_shapes_abort :
    (Matrix.make 1 2).m = (Matrix.make 2 1).n
      ∧ matMul (Matrix.make 1 2) (Matrix.make 2 1) = none :=
  ⟨rfl, rfl⟩

/-- Claim C6, at a failing input: the two operands have identical shapes
`1×2`, yet `operator+` aborts instead of returning the elementwise sum —
the access `A(0,1)` fails the accessor assertion `j < n` (here `n = 1`). -/
theorem c6_matadd_identical_shapes_abort :
    (Matrix.make 1 2).n = (Matrix.make 1 2).n
      ∧ (Matrix.make 1 2).m = (Matrix.make 1 2).m
      ∧ matAdd (Matrix.make 1 2) (Matrix.make 1 2) = none :=
  ⟨rfl, rfl, rfl⟩

/-- Claim C9: the 1-D accessor succeeds exactly when the matrix is a row or
column vector (`n = 1` or `m = 1`) and the index lies in `[0, n*m)`; any
other 1-D access fails an assertion. -/
theorem c9_accessor_1d (A : Matrix) (i : ℤ)
    (hWF : A.entries.length = A.n * A.m) :
    (A.get1 i).isSome = true
      ↔ (0 ≤ i ∧ i < (A.n : ℤ) * (A.m : ℤ) ∧ (A.n = 1 ∨ A.m = 1)) := by
  have hcast : ((A.n * A.m : ℕ) : ℤ) = (A.n : ℤ) * (A.m : ℤ) := by
    push_cast
    ring
  unfold Matrix.get1
  by_cases h1 : 0 ≤ i ∧ i < (A.n : ℤ) * (A.m : ℤ)
  · rw [if_pos h1]
    by_cases h2 : A.n = 1 ∨ A.m = 1
    · rw [if_pos h2]
      have hlt : i.toNat < A.entries.length := by
        rw [hWF]
        omega
      rw [List.get?_eq_get hlt]
      exact ⟨fun _ => ⟨h1.1, h1.2, h2⟩, fun _ => rfl⟩
    · rw [if_neg h2]
      constructor
      · intro h
        simp at h
      · intro hcon
        exact (h2 hcon.2.2).elim
  · rw [if_neg h1]
    constructor
    · intro h
      simp at h
    · intro hcon
      exact (h1 ⟨hcon.1, hcon.2.1⟩).elim

/-- Witness for C9 on the `1×3` matrix at index 2. -/
theorem c9_witness :
    (Matrix.make 1 3).entries.length = (Matrix.make 1 3).n * (Matrix.make 1 3).m
      ∧ (((Matrix.make 1 3).get1 2).isSome = true
        ↔ (0 ≤ (2 : ℤ)
            ∧ (2 : ℤ) < ((Matrix.make 1 3).n : ℤ) * ((Matrix.make 1 3).m : ℤ)
            ∧ ((Matrix.make 1 3).n = 1 ∨ (Matrix.make 1 3).m = 1))) :=
  ⟨by decide, c9_accessor_1d (Matrix.make 1 3) 2 (by decide)⟩

/-- Claim C10 (implicit): the 2-D accessor asserts `0 ≤ i < n` and
`0 ≤ j < n` — the column index is checked against the row count `n`, never
against `m`. The check is exact for square matrices; on a non-square
matrix a column index `j` with `m ≤ j < n` passes while a valid `j` with
`n ≤ j < m` fails. -/
theorem c10_accessor_2d_checks_j_against_n (A : Matrix) (i j : ℤ) :
    (A.n = A.m →
        (A.check2 i j = true
          ↔ (0 ≤ i ∧ i < (A.n : ℤ)) ∧ (0 ≤ j ∧ j < (A.m : ℤ))))
      ∧ (0 ≤ i → i < (A.n : ℤ) → 0 ≤ j → (A.m : ℤ) ≤ j → j < (A.n : ℤ) →
          A.check2 i j = true)
      ∧ ((A.n : ℤ) ≤ j → j < (A.m : ℤ) → A.check2 i j = false) := by
  unfold Matrix.check2
  refine ⟨?_, ?_, ?_⟩
  · intro hnm
    simp only [Bool.and_eq_true, decide_eq_true_eq]
    constructor
    · intro h
      omega
    · intro h
      omega
  · intro h1 h2 h3 h4 h5
    simp only [Bool.and_eq_true, decide_eq_true_eq]
    omega
  · intro h1 h2
    rw [← Bool.not_eq_true]
    simp only [Bool.and_eq_true, decide_eq_true_eq]
    omega

/-- Witness for C10 on the non-square `3×2` matrix: the out-of-range column
index `j = 2` (with `m = 2 ≤ j < n = 3`) passes the assertion. -/
theorem c10_witness :
    0 ≤ (0 : ℤ) ∧ (0 : ℤ) < ((Matrix.make 3 2).n : ℤ) ∧ 0 ≤ (2 : ℤ)
      ∧ ((Matrix.make 3 2).m : ℤ) ≤ 2 ∧ (2 : ℤ) < ((Matrix.make 3 2).n : ℤ)
      ∧ (Matrix.make 3 2).check2 0 2 = true :=
  ⟨by decide, by decide, by decide, by decide, by decide,
    (c10_accessor_2d_checks_j_against_n (Matrix.make 3 2) 0 2).2.1 (by decide)
      (by decide) (by decide) (by decide) (by decide)⟩

/-- The validation predicate of `Tlang_matmatmul` (source line 374):
`TC_ASSERT(std::abs(a - b) < 1e-5_f)` — the run survives iff this holds.
The tolerance is the exact decimal constant, modelled in `ℚ`. -/
def matmatmul_check (a b : ℚ) : Bool :=
  decide (|a - b| < 1 / 100000)

/-- The validation predicate of `test_mat_vec_mul` (source line 611):
`if (std::abs(computed - gt) > 1e-4_f) { ... TC_ERROR }` — the run aborts
iff this strict comparison holds. -/
def matvecmul_fails (computed gt : ℚ) : Bool :=
  decide (|computed - gt| > 1 / 10000)

/-- Counterexample to claim C5: the mat-vec validation compares compiled
output against a reference oracle, yet at absolute difference `5e-5`
(which is `≥ 1e-5`) it does not fail — its tolerance is `1e-4`, not the
claimed `1e-5`. -/
theorem c5_counterexample :
    matvecmul_fails (5 / 100000) 0 = false
      ∧ |(5 : ℚ) / 100000 - 0| ≥ 1 / 100000 := by
  constructor
  · rw [matvecmul_fails, decide_eq_false_iff_not]
    rw [abs_of_nonneg (by norm_num)]
    norm_num
  · rw [abs_of_nonneg (by norm_num)]
    norm_num

/-- Claim C5 (amended): the matmul validation of `Tlang_matmatmul` fails
iff the absolute difference is at least `1e-5`, while the mat-vec
validation of `test_mat_vec_mul` uses absolute tolerance `1e-4` and fails
iff the difference strictly exceeds `1e-4`. -/
theorem c5_validation_tolerances (a b : ℚ) :
    (matmatmul_check a b = false ↔ 1 / 100000 ≤ |a - b|)
      ∧ (matvecmul_fails a b = true ↔ 1 / 10000 < |a - b|) := by
  constructor
  · rw [matmatmul_check, decide_eq_false_iff_not, not_lt]
  · rw [matvecmul_fails, decide_eq_true_eq]

/-- Modelled from the spec: the kernel compiler (`Program`, declared in
`tlang.h`, not among the sources) as configured by `test_vec_add` — a
width-1 layout with one leaf per buffer and `c = a + b` stored to buffer 2 —
computes, per spec sections 4.4 and 8, the elementwise loop
`z[i] = x[i] + y[i]` over the batch. -/
def vecAddKernel (x y : ℕ → ℚ) (i : ℕ) : ℚ :=
  x i + y i

/-- Claim C7: with inputs `x[i] = i` and `y[i] = -2*i` over 16 instances,
the compiled width-1 add kernel produces `z[i] = x[i] + y[i] = -i` for
every `i` in `0..15`. -/
theorem c7_vec_add (i : ℕ) (hi : i < 16) :
    vecAddKernel (fun t => (t : ℚ)) (fun t => -2 * t) i = -(i : ℚ) := by
  unfold vecAddKernel
  ring

/-- Witness for C7 at `i = 3`. -/
theorem c7_witness :
    3 < 16
      ∧ vecAddKernel (fun t => (t : ℚ)) (fun t => -2 * t) 3 = -((3 : ℕ) : ℚ) :=
  ⟨by decide, c7_vec_add 3 (by decide)⟩

/-- The CPU frequency constant: `constexpr real cpu_frequency = 4.2_f`. -/
def cpu_frequency : ℚ :=
  42 / 10

/-- State of one execution of `measure_cpe`: how many clock readings have
been consumed from the oracle and how many times the target was invoked. -/
structure CpeState where
  reads : ℕ
  calls : ℕ
deriving DecidableEq

/-- The batch-size estimation loop of `measure_cpe` (source lines 30-42):
`t = get_time()`, run the target `batch_size` times, `t = get_time() - t`,
and double the batch while `t < 0.05 * time_second`. The unbounded `while`
gets explicit fuel; clock readings come from the oracle in order. -/
def estimateLoop (clock : ℕ → ℚ) (ts : ℚ) :
    ℕ → ℕ → CpeState → Option (ℕ × CpeState)
  | 0, _, _ => none
  | fuel + 1, batch, s =>
    if clock (s.reads + 1) - clock s.reads < 5 / 100 * ts then
      estimateLoop clock ts fuel (batch * 2) ⟨s.reads + 2, s.calls + batch⟩
    else
      some (batch, ⟨s.reads + 2, s.calls + batch⟩)

/-- The timed measurement loop of `measure_cpe` (source lines 44-51): while
`get_time() - start_t < time_second`, run the target `batch` more times and
add `batch` to `total_batches`. -/
def measureLoop (clock : ℕ → ℚ) (start_t ts : ℚ) (batch : ℕ) :
    ℕ → ℕ → CpeState → Option (ℕ × CpeState)
  | 0, _, _ => none
  | fuel + 1, total, s =>
    if clock s.reads - start_t < ts then
      measureLoop clock start_t ts batch fuel (total + batch)
        ⟨s.reads + 1, s.calls + batch⟩
    else
      some (total, ⟨s.reads + 1, s.calls⟩)

/-- `measure_cpe` (source lines 22-54). With a zero time budget the target
runs exactly once and the `quiet_NaN` return is the non-numeric marker
`none`. Otherwise the two loops run (exhausting the fuel of either
unbounded `while` is the outer `none`), a final clock reading closes the
window, and the ratio
`(end - start) * 1e9 * cpu_frequency / (total_batches * elements_per_call)`
is returned as a numeric payload. -/
def measure_cpe (clock : ℕ → ℚ) (fuel : ℕ) (elements_per_call : ℤ)
    (time_second : ℚ) : Option (CpeState × Option ℚ) :=
  if time_second = 0 then
    some (⟨0, 1⟩, none)
  else
    match estimateLoop clock time_second fuel 1 ⟨0, 0⟩ with
    | none => none
    | some (batch, s1) =>
      match measureLoop clock (clock s1.reads) time_second batch fuel 0
          ⟨s1.reads + 1, s1.calls⟩ with
      | none => none
      | some (total, s2) =>
        some (⟨s2.reads + 1, s2.calls⟩,
          some ((clock s2.reads - clock s1.reads) * 1000000000 * cpu_frequency
            / ((total : ℚ) * (elements_per_call : ℚ))))

/-- The estimation loop performs at least its initial batch of target calls
before it can return. -/
lemma estimateLoop_calls (clock : ℕ → ℚ) (ts : ℚ) :
    ∀ (fuel batch : ℕ) (s : CpeState) (res : ℕ × CpeState),
      estimateLoop clock ts fuel batch s = some res →
        s.calls + batch ≤ res.2.calls := by
  intro fuel
  induction fuel with
  | zero =>
    intro batch s res h
    simp [estimateLoop] at h
  | succ fuel ih =>
    intro batch s res h
    simp only [estimateLoop] at h
    split at h
    · have h1 := ih (batch * 2) ⟨s.reads + 2, s.calls + batch⟩ res h
      have h2 : s.calls + batch + batch * 2 ≤ res.2.calls := h1
      omega
    · injection h with h1
      subst h1
      exact le_rfl

/-- The measurement loop never loses target calls. -/
lemma measureLoop_calls (clock : ℕ → ℚ) (start_t ts : ℚ) (batch : ℕ) :
    ∀ (fuel total : ℕ) (s : CpeState) (res : ℕ × CpeState),
      measureLoop clock start_t ts batch fuel total s = some res →
        s.calls ≤ res.2.calls := by
  intro fuel
  induction fuel with
  | zero =>
    intro total s res h
    simp [measureLoop] at h
  | succ fuel ih =>
    intro total s res h
    simp only [measureLoop] at h
    split at h
    · have h1 := ih (total + batch) ⟨s.reads + 1, s.calls + batch⟩ res h
      have h2 : s.calls + batch ≤ res.2.calls := h1
      omega
    · injection h with h1
      subst h1
      exact le_rfl

/-- Claim C8: `measure_cpe` with `time_second == 0` invokes the target
exactly once and returns the non-numeric quiet-NaN marker instead of a
cycles-per-element number; with a nonzero budget, unless a measurement
loop is still running (fuel exhaustion of an unbounded `while`), the
target has been invoked at least once and a numeric ratio is returned. -/
theorem c8_measure_cpe (clock : ℕ → ℚ) (fuel : ℕ) (epc : ℤ) (ts : ℚ) :
    measure_cpe clock fuel epc 0 = some (⟨0, 1⟩, none)
      ∧ (ts ≠ 0 →
          measure_cpe clock fuel epc ts = none
            ∨ ∃ st r, measure_cpe clock fuel epc ts = some (st, some r)
                ∧ 1 ≤ st.calls) := by
  constructor
  · simp [measure_cpe]
  · intro hts
    rw [measure_cpe, if_neg hts]
    rcases hE : estimateLoop clock ts fuel 1 ⟨0, 0⟩ with _ | ⟨batch, s1⟩
    · simp only [hE]
      exact Or.inl trivial
    · simp only [hE]
      rcases hM : measureLoop clock (clock s1.reads) ts batch fuel 0
          ⟨s1.reads + 1, s1.calls⟩ with _ | ⟨total, s2⟩
      · simp only [hM]
        exact Or.inl trivial
      · simp only [hM]
        refine Or.inr ⟨⟨s2.reads + 1, s2.calls⟩,
          (clock s2.reads - clock s1.reads) * 1000000000 * cpu_frequency
            / ((total : ℚ) * (epc : ℚ)), rfl, ?_⟩
        have hc1 : 0 + 1 ≤ s1.calls :=
          estimateLoop_calls clock ts fuel 1 ⟨0, 0⟩ (batch, s1) hE
        have hc2 : s1.calls ≤ s2.calls :=
          measureLoop_calls clock (clock s1.reads) ts batch fuel 0
            ⟨s1.reads + 1, s1.calls⟩ (total, s2) hM
        have hgoal : 1 ≤ s2.calls := by omega
        exact hgoal

/-- Witness for C8 at a concrete clock oracle, fuel 0, `epc = 0`, `ts = 1`. -/
theorem c8_witness :
    (1 : ℚ) ≠ 0
      ∧ measure_cpe (fun i => (i : ℚ)) 0 0 0 = some (⟨0, 1⟩, none)
      ∧ (measure_cpe (fun i => (i : ℚ)) 0 0 1 = none
          ∨ ∃ st r, measure_cpe (fun i => (i : ℚ)) 0 0 1 = some (st, some r)
              ∧ 1 ≤ st.calls) :=
  ⟨by norm_num, (c8_measure_cpe (fun i => (i : ℚ)) 0 0 1).1,
    (c8_measure_cpe (fun i => (i : ℚ)) 0 0 1).2 (by norm_num)⟩

end TaichiMatmul
